import Mathlib

/-!
Shallow embedding of the SymbolIndustryTracker core
(`src/utils/data_processor.py`, class `IndustryMapper`, and its caller
`src/main.py`).  Strings are modelled as `List Char`; Python `str.upper()` is
modelled character-wise by `Char.toUpper` (faithful on the ASCII tickers this
program handles); Python dictionaries whose insertion order matters are
modelled as association lists in insertion order.
-/

namespace SymbolIndustry

/-- Characters removed by Python `str.strip()` (ASCII whitespace). -/
def isSpaceChar (c : Char) : Bool :=
  c = ' ' || c = '\t' || c = '\n' || c = '\r' || c = '\x0b' || c = '\x0c'

/-- Python `s.strip()`: remove leading and trailing whitespace. -/
def strip (l : List Char) : List Char :=
  ((l.dropWhile isSpaceChar).reverse.dropWhile isSpaceChar).reverse

/-- `symbols.replace('\n', ',').replace(';', ',')` acting on one character. -/
def replaceSep (c : Char) : Char :=
  if c = '\n' then ',' else if c = ';' then ',' else c

/-- Python `s.split(sep)` for a one-character separator: splits at every
occurrence, keeping empty fragments. -/
def splitChar (sep : Char) : List Char → List (List Char)
  | [] => [[]]
  | c :: cs =>
    match splitChar sep cs with
    | [] => [[]]
    | t :: ts => if c = sep then [] :: t :: ts else (c :: t) :: ts

/-- `if clean_symbol.startswith("NSE:"): clean_symbol = clean_symbol[4:]`. -/
def dropNSE (l : List Char) : List Char :=
  if l.take 4 = ("NSE:".data) then l.drop 4 else l

/-- `s.strip().upper()` followed by the one-shot `NSE:` removal
(`data_processor.py` lines 51-53). -/
def cleanToken (l : List Char) : List Char :=
  dropNSE ((strip l).map Char.toUpper)

/-- Order-preserving first-occurrence deduplication: the
`seen = set(); [x for x in symbol_list if not (x in seen or seen.add(x))]`
idiom of `clean_symbols` (line 58). -/
def dedupAux : List (List Char) → List (List Char) → List (List Char)
  | _, [] => []
  | seen, x :: xs =>
    if x ∈ seen then dedupAux seen xs else x :: dedupAux (x :: seen) xs

def dedupL (l : List (List Char)) : List (List Char) := dedupAux [] l

/-- `IndustryMapper.clean_symbols` (`data_processor.py` lines 41-60). -/
def clean_symbols (input : List Char) : List (List Char) :=
  let replaced := input.map replaceSep
  let toks := splitChar ',' replaced
  let cleaned := (toks.filter (fun t => !(strip t).isEmpty)).map cleanToken
  dedupL cleaned

/-- Association-list lookup, modelling `symbol in self.mapping_dict` /
`self.mapping_dict[symbol]`. -/
def lookupA (m : List (List Char × List Char)) (s : List Char) : Option (List Char) :=
  match m with
  | [] => none
  | (k, v) :: rest => if k = s then some v else lookupA rest s

/-- The loop of `map_symbols` (lines 72-76): partition the cleaned list into
the mapped association list (dict in insertion order) and the invalid list. -/
def mapLoop (m : List (List Char × List Char)) :
    List (List Char) → List (List Char × List Char) × List (List Char)
  | [] => ([], [])
  | s :: rest =>
    let r := mapLoop m rest
    match lookupA m s with
    | some v => ((s, v) :: r.1, r.2)
    | none => (r.1, s :: r.2)

def msg900 : List Char := "Maximum 900 symbols allowed per batch".data

/-- `IndustryMapper.map_symbols` (`data_processor.py` lines 62-78); the
`ValueError` is modelled as `Except.error` carrying the message. -/
def map_symbols (m : List (List Char × List Char)) (input : List Char) :
    Except (List Char) (List (List Char × List Char) × List (List Char)) :=
  let cl := clean_symbols input
  if cl.length > 900 then .error msg900
  else .ok (mapLoop m cl)

/-- One step of the `defaultdict(list)` grouping: append `sym` to the group of
`ind`, creating the group at the end on first occurrence. -/
def addToGroup (ind sym : List Char) :
    List (List Char × List (List Char)) → List (List Char × List (List Char))
  | [] => [(ind, [sym])]
  | (i, syms) :: rest =>
    if i = ind then (i, syms ++ [sym]) :: rest else (i, syms) :: addToGroup ind sym rest

/-- Grouping loop of `format_tv_output` (lines 83-85). -/
def groupByIndustry (mapped : List (List Char × List Char)) :
    List (List Char × List (List Char)) :=
  mapped.foldl (fun acc p => addToGroup p.2 p.1 acc) []

/-- Python string `<` : lexicographic comparison by code point. -/
def ltChars : List Char → List Char → Bool
  | [], [] => false
  | [], _ :: _ => true
  | _ :: _, [] => false
  | a :: as, b :: bs => if a < b then true else if b < a then false else ltChars as bs

def insertBy {α : Type} (lt : α → α → Bool) (x : α) : List α → List α
  | [] => [x]
  | y :: ys => if lt y x then y :: insertBy lt x ys else x :: y :: ys

/-- Python `sorted` (stable insertion sort; stability is irrelevant here since
all sort keys in this program are distinct). -/
def sortByL {α : Type} (lt : α → α → Bool) : List α → List α
  | [] => []
  | x :: xs => insertBy lt x (sortByL lt xs)

/-- Decimal digit character of `n % 10`-style values. -/
def digitChar (n : Nat) : Char := Char.ofNat (48 + n)

def natCharsAux : Nat → Nat → List Char → List Char
  | 0, _, acc => acc
  | fuel + 1, n, acc =>
    if n < 10 then digitChar n :: acc
    else natCharsAux fuel (n / 10) (digitChar (n % 10) :: acc)

/-- Decimal rendering of a natural number, as Python `str(n)` / f-string. -/
def natChars (n : Nat) : List Char := natCharsAux (n + 1) n []

/-- `sep.join(parts)`. -/
def joinL (sep : List Char) : List (List Char) → List Char
  | [] => []
  | [x] => x
  | x :: y :: ys => x ++ sep ++ joinL sep (y :: ys)

/-- `IndustryMapper.format_tv_output` (`data_processor.py` lines 80-95). -/
def format_tv_output (mapped : List (List Char × List Char)) : List Char :=
  let groups := sortByL (fun a b => ltChars a.1 b.1) (groupByIndustry mapped)
  let lines := groups.map (fun g =>
    "###".data ++ g.1 ++ "(".data ++ natChars g.2.length ++ "),".data ++
      joinL [','] ((sortByL ltChars g.2).map (fun s => "NSE:".data ++ s)))
  joinL [','] lines

/-- The three fields of `IndustryMapper` assigned by `load_database`
(`available_industries`, `mapping_df`, `mapping_dict`). -/
structure MapperState where
  available_industries : List (List Char)
  mapping_df : List (List Char × List Char)
  mapping_dict : List (List Char × List Char)
deriving DecidableEq

/-- The two tabular sources read by `load_database`: the headerless
industry-category column (`Industry Analytics.csv`, column 0) and the
`(Stock Name, Basic Industry)` rows of `Basic RS Setup (4).csv`; `none`
models a missing or unreadable file. -/
structure FS where
  industryCategories : Option (List (List Char))
  stockData : Option (List (List Char × List Char))

/-- Errors raised by `load_database`: the not-found / read-error wrappers, and
the `ValueError` naming the offending industry set. -/
inductive LoadError where
  | notFound : LoadError
  | invalidIndustries : List (List Char) → LoadError
deriving DecidableEq

/-- `sorted(column.unique())` (line 18): distinct values in first-occurrence
order, then sorted. -/
def sortedUnique (l : List (List Char)) : List (List Char) :=
  sortByL ltChars (dedupL l)

/-- `IndustryMapper.load_database` (`data_processor.py` lines 13-39) as a
state transformer.  The fields are assigned one at a time exactly as in the
Python method; when an exception is raised, fields already assigned keep their
new values, since a Python `try`/`except` does not roll back attribute
assignments.  The result pairs the post-call state with the raised error, if
any. -/
def load_database (fs : FS) (st : MapperState) : MapperState × Option LoadError :=
  match fs.industryCategories with
  | none => (st, some .notFound)
  | some cats =>
    let st1 := { st with available_industries := sortedUnique cats }
    match fs.stockData with
    | none => (st1, some .notFound)
    | some rows =>
      let st2 := { st1 with mapping_df := rows }
      let invalid := dedupL ((rows.map Prod.snd).filter
        (fun i => decide (i ∉ st2.available_industries)))
      if invalid.isEmpty then
        ({ st2 with
            mapping_dict := rows.map (fun r => (r.1.map Char.toUpper, r.2)) },
         none)
      else (st2, some (.invalidIndustries invalid))

/-- One row of `Results Calendar.csv` after the column renaming of
`get_fundamentals_data` (`Stock Name` → `Symbol`, `Quarterly Results Date` →
`Results Date`); the remaining percentage-metric columns are carried as an
opaque payload. -/
structure CalRow where
  symbol : List Char
  resultsDate : List Char
  metrics : List (List Char)
deriving DecidableEq

def isDigitChar (c : Char) : Bool := 48 ≤ c.toNat && c.toNat ≤ 57

def digitsToNat (l : List Char) : Nat :=
  l.foldl (fun a c => a * 10 + (c.toNat - 48)) 0

/-- `strftime('%d %b %Y')` month abbreviations. -/
def monthAbbrev : Nat → Option (List Char)
  | 1 => some "Jan".data
  | 2 => some "Feb".data
  | 3 => some "Mar".data
  | 4 => some "Apr".data
  | 5 => some "May".data
  | 6 => some "Jun".data
  | 7 => some "Jul".data
  | 8 => some "Aug".data
  | 9 => some "Sep".data
  | 10 => some "Oct".data
  | 11 => some "Nov".data
  | 12 => some "Dec".data
  | _ => none

/-- `pd.to_datetime(s, format='%d/%m/%Y')` followed by
`strftime('%d %b %Y')` for a single cell: parse `DD/MM/YYYY` and rewrite to
`DD Mon YYYY`; `none` when the cell does not match the format. -/
def reformatDate (s : List Char) : Option (List Char) :=
  match splitChar '/' s with
  | [d, m, y] =>
    if d ≠ [] ∧ m ≠ [] ∧ y ≠ [] ∧ d.all isDigitChar ∧ m.all isDigitChar ∧
        y.all isDigitChar then
      match monthAbbrev (digitsToNat m) with
      | some mn => some (d ++ [' '] ++ mn ++ [' '] ++ y)
      | none => none
    else none
  | _ => none

/-- The inner `try` of `get_fundamentals_data` (lines 131-135): the date
column is converted only if the whole column parses; on any failure the
original strings are all kept. -/
def reformatDates (rows : List CalRow) : List CalRow :=
  match rows.mapM (fun r =>
      (reformatDate r.resultsDate).map (fun d => { r with resultsDate := d })) with
  | some rs => rs
  | none => rows

/-- `IndustryMapper.get_fundamentals_data` (`data_processor.py` lines
101-140).  `calendar` is the results-calendar source; `none` models a missing
or unreadable file, in which case the outer `except` returns an empty frame.
Symbols and the stock-name column are compared after uppercasing both. -/
def get_fundamentals_data (calendar : Option (List CalRow))
    (symbols : List (List Char)) : List CalRow :=
  match calendar with
  | none => []
  | some rows =>
    let rows1 := rows.map (fun r => { r with symbol := r.symbol.map Char.toUpper })
    let syms := symbols.map (fun s => s.map Char.toUpper)
    let filtered := rows1.filter (fun r : CalRow => decide (r.symbol ∈ syms))
    if filtered.isEmpty then []
    else reformatDates filtered

/-- Modelled from the spec: `format_flat_output` is invoked from the
presentation layer (`src/main.py` line 133) but its definition is absent from
the repository sources.  Spec §4.4: flat format renders one line per entry,
`TICKER:INDUSTRY`, in the same order as `mapped`, no sorting, no grouping. -/
def format_flat_output (mapped : List (List Char × List Char)) : List Char :=
  joinL ['\n'] (mapped.map (fun p => p.1 ++ [':'] ++ p.2))

end SymbolIndustry

namespace SymbolIndustry

/-- C1: `format_tv_output` on the mapped dictionary
`{"MSFT":"Tech","TCS":"IT","AAPL":"Tech"}` (in that insertion order) returns
exactly `"###IT(1),NSE:TCS,###Tech(2),NSE:AAPL,NSE:MSFT"`: groups sorted
alphabetically by industry, tickers within a group sorted alphabetically and
prefixed with `NSE:`, each group rendered `###INDUSTRY(count),TICKERS`, groups
joined by commas. -/
theorem format_tv_output_example :
    format_tv_output
      [("MSFT".data, "Tech".data), ("TCS".data, "IT".data), ("AAPL".data, "Tech".data)]
      = "###IT(1),NSE:TCS,###Tech(2),NSE:AAPL,NSE:MSFT".data := by
  decide

/-- C10: `format_tv_output` applied to an empty mapped dictionary returns the
empty string: no group markers and no separators. -/
theorem format_tv_output_empty : format_tv_output [] = "".data := by
  decide

/-- C2: the flat formatter renders one line per entry as `TICKER:INDUSTRY` in
the order of the mapped structure; in particular on
`{"AAPL":"Tech","MSFT":"Tech"}` it returns `"AAPL:Tech\nMSFT:Tech"`. -/
theorem format_flat_output_example :
    format_flat_output [("AAPL".data, "Tech".data), ("MSFT".data, "Tech".data)]
      = "AAPL:Tech\nMSFT:Tech".data := by
  decide

/-- C3: `map_symbols` fails with the batch-size `ValueError` exactly when the
normalized (deduplicated) symbol count exceeds the fixed maximum of 900; for
any input whose normalized count is at most 900 (in particular exactly 900) it
succeeds. -/
theorem map_symbols_batch_limit (m : List (List Char × List Char)) (s : List Char) :
    (map_symbols m s = .error msg900 ↔ 900 < (clean_symbols s).length) ∧
    ((∃ p, map_symbols m s = .ok p) ↔ (clean_symbols s).length ≤ 900) := by
  unfold map_symbols
  by_cases h : (clean_symbols s).length > 900
  · constructor
    · simp [h]
    · simp only [if_pos h]
      constructor
      · rintro ⟨p, hp⟩
        exact absurd hp (by simp)
      · intro hle
        omega
  · constructor
    · simp only [if_neg h]
      constructor
      · intro hp
        exact absurd hp (by simp)
      · intro hlt
        exact absurd hlt h
    · simp only [if_neg h]
      exact ⟨fun _ => by omega, fun _ => ⟨_, rfl⟩⟩

/-- The mapping loop is the evident partition: the mapped association list
keeps, in order, the cleaned tickers found in the table together with their
industries, and the invalid list keeps, in order, those not found. -/
theorem mapLoop_eq (m : List (List Char × List Char)) (l : List (List Char)) :
    mapLoop m l =
      (l.filterMap (fun t => (lookupA m t).map (fun v => (t, v))),
       l.filter (fun t => (lookupA m t).isNone)) := by
  induction l with
  | nil => rfl
  | cons x xs ih =>
    simp only [mapLoop, ih]
    cases h : lookupA m x <;>
      simp [h, List.filterMap_cons, List.filter_cons]

/-- C4: whenever the normalized count is within the batch maximum,
`map_symbols` totally partitions the normalized ticker list: tickers present
in the mapping go to `mapped` and absent ones to `unmapped`, both in
normalized-list order, and every normalized ticker lands in exactly one of the
two. -/
theorem map_symbols_partition (m : List (List Char × List Char)) (s : List Char)
    (h : (clean_symbols s).length ≤ 900) :
    ∃ mapped unmapped,
      map_symbols m s = .ok (mapped, unmapped) ∧
      mapped = (clean_symbols s).filterMap
        (fun t => (lookupA m t).map (fun v => (t, v))) ∧
      unmapped = (clean_symbols s).filter (fun t => (lookupA m t).isNone) ∧
      ∀ t ∈ clean_symbols s,
        (t ∈ mapped.map Prod.fst ∧ t ∉ unmapped) ∨
        (t ∉ mapped.map Prod.fst ∧ t ∈ unmapped) := by
  refine ⟨(mapLoop m (clean_symbols s)).1, (mapLoop m (clean_symbols s)).2, ?_, ?_, ?_, ?_⟩
  · unfold map_symbols
    rw [if_neg (by omega)]
  · rw [mapLoop_eq]
  · rw [mapLoop_eq]
  · intro t ht
    rw [mapLoop_eq]
    cases hl : lookupA m t with
    | some v =>
      left
      constructor
      · exact List.mem_map.mpr
          ⟨(t, v), List.mem_filterMap.mpr ⟨t, ht, by simp [hl]⟩, rfl⟩
      · intro hmem
        have := (List.mem_filter.mp hmem).2
        simp [hl] at this
    | none =>
      right
      constructor
      · intro hmem
        obtain ⟨p, hp, hfst⟩ := List.mem_map.mp hmem
        obtain ⟨u, _, hu⟩ := List.mem_filterMap.mp hp
        cases hc : lookupA m u with
        | some w =>
          rw [hc] at hu
          simp at hu
          subst hu
          have hut : u = t := hfst
          rw [hut, hl] at hc
          exact Option.noConfusion hc
        | none =>
          rw [hc] at hu
          simp at hu
      · exact List.mem_filter.mpr ⟨ht, by simp [hl]⟩

/-- Witness for C4: a concrete mapping table and raw input within the batch
bound, one mapped ticker and one unmapped ticker. -/
theorem map_symbols_partition_witness :
    (clean_symbols "AAPL,XYZ".data).length ≤ 900 ∧
    (∃ mapped unmapped,
      map_symbols [("AAPL".data, "Tech".data)] "AAPL,XYZ".data = .ok (mapped, unmapped) ∧
      mapped = (clean_symbols "AAPL,XYZ".data).filterMap
        (fun t => (lookupA [("AAPL".data, "Tech".data)] t).map (fun v => (t, v))) ∧
      unmapped = (clean_symbols "AAPL,XYZ".data).filter
        (fun t => (lookupA [("AAPL".data, "Tech".data)] t).isNone) ∧
      ∀ t ∈ clean_symbols "AAPL,XYZ".data,
        (t ∈ mapped.map Prod.fst ∧ t ∉ unmapped) ∨
        (t ∉ mapped.map Prod.fst ∧ t ∈ unmapped)) :=
  ⟨by decide,
    map_symbols_partition [("AAPL".data, "Tech".data)] "AAPL,XYZ".data (by decide)⟩

/-- C6: normalization and mapping are invariant under the exchange-prefix
decoration and letter case: `"NSE:RELIANCE"` and `"RELIANCE"` normalize to the
same canonical ticker, and `"aapl"` and `"AAPL"` produce identical mapping
results under every mapping table. -/
theorem normalization_invariance :
    clean_symbols "NSE:RELIANCE".data = clean_symbols "RELIANCE".data ∧
    ∀ m, map_symbols m "aapl".data = map_symbols m "AAPL".data := by
  refine ⟨by decide, fun m => ?_⟩
  have h : clean_symbols "aapl".data = clean_symbols "AAPL".data := by decide
  unfold map_symbols
  rw [h]

theorem mem_insertBy {α : Type} (lt : α → α → Bool) (a x : α) (l : List α) :
    x ∈ insertBy lt a l ↔ x = a ∨ x ∈ l := by
  induction l with
  | nil => simp [insertBy]
  | cons y ys ih =>
    simp only [insertBy]
    split
    · simp only [List.mem_cons, ih]
      tauto
    · simp [List.mem_cons]

theorem mem_sortByL {α : Type} (lt : α → α → Bool) (x : α) (l : List α) :
    x ∈ sortByL lt l ↔ x ∈ l := by
  induction l with
  | nil => simp [sortByL]
  | cons y ys ih => simp [sortByL, mem_insertBy, ih]

theorem mem_of_mem_dedupAux {x : List Char} :
    ∀ seen l, x ∈ dedupAux seen l → x ∈ l := by
  intro seen l
  induction l generalizing seen with
  | nil => simp [dedupAux]
  | cons y ys ih =>
    simp only [dedupAux]
    split
    · intro h
      exact List.mem_cons_of_mem _ (ih _ h)
    · intro h
      rcases List.mem_cons.mp h with h1 | h1
      · exact h1 ▸ List.mem_cons_self _ _
      · exact List.mem_cons_of_mem _ (ih _ h1)

theorem mem_dedupAux_of_mem {x : List Char} :
    ∀ seen l, x ∈ l → x ∈ dedupAux seen l ∨ x ∈ seen := by
  intro seen l
  induction l generalizing seen with
  | nil => intro h; exact absurd h (List.not_mem_nil x)
  | cons y ys ih =>
    intro h
    by_cases hy : y ∈ seen
    · simp only [dedupAux, if_pos hy]
      rcases List.mem_cons.mp h with h1 | h1
      · right; exact h1 ▸ hy
      · exact ih seen h1
    · simp only [dedupAux, if_neg hy]
      rcases List.mem_cons.mp h with h1 | h1
      · left; exact h1 ▸ List.mem_cons_self _ _
      · rcases ih (y :: seen) h1 with h2 | h2
        · left; exact List.mem_cons_of_mem _ h2
        · rcases List.mem_cons.mp h2 with h3 | h3
          · left; exact h3 ▸ List.mem_cons_self _ _
          · right; exact h3

theorem mem_dedupL (x : List Char) (l : List (List Char)) :
    x ∈ dedupL l ↔ x ∈ l := by
  constructor
  · exact mem_of_mem_dedupAux [] l
  · intro h
    rcases mem_dedupAux_of_mem [] l h with h1 | h1
    · exact h1
    · exact absurd h1 (List.not_mem_nil x)

theorem mem_sortedUnique (x : List Char) (l : List (List Char)) :
    x ∈ sortedUnique l ↔ x ∈ l := by
  unfold sortedUnique
  rw [mem_sortByL, mem_dedupL]

theorem dedupL_eq_nil (l : List (List Char)) : dedupL l = [] ↔ l = [] := by
  cases l with
  | nil => simp [dedupL, dedupAux]
  | cons x xs => simp [dedupL, dedupAux]

/-- C7 (counterexample): a load that fails the consistency check does not
leave the mapper's state unchanged.  With old state
`(["OldInd"], [("OLDSYM","OldInd")], [("OLDSYM","OldInd")])`, loading a
catalog `["Tech"]` and mapping `[("TCS","IT")]` raises the consistency error,
yet the post-call state differs from the pre-call state
(`available_industries` and `mapping_df` were already reassigned). -/
theorem load_database_not_atomic :
    (load_database
        ⟨some ["Tech".data], some [("TCS".data, "IT".data)]⟩
        ⟨["OldInd".data], [("OLDSYM".data, "OldInd".data)],
          [("OLDSYM".data, "OldInd".data)]⟩).2.isSome = true ∧
    (load_database
        ⟨some ["Tech".data], some [("TCS".data, "IT".data)]⟩
        ⟨["OldInd".data], [("OLDSYM".data, "OldInd".data)],
          [("OLDSYM".data, "OldInd".data)]⟩).1
      ≠ ⟨["OldInd".data], [("OLDSYM".data, "OldInd".data)],
          [("OLDSYM".data, "OldInd".data)]⟩ := by
  decide

/-- Case analysis of `load_database`: the resulting state and error on each
of the four control paths (missing catalog, missing stock table, consistency
failure, success). -/
theorem load_database_cases (fs : FS) (st : MapperState) :
    (fs.industryCategories = none →
      load_database fs st = (st, some .notFound)) ∧
    (∀ cats, fs.industryCategories = some cats → fs.stockData = none →
      load_database fs st =
        ({ st with available_industries := sortedUnique cats }, some .notFound)) ∧
    (∀ cats rows, fs.industryCategories = some cats → fs.stockData = some rows →
      dedupL ((rows.map Prod.snd).filter
        (fun i => decide (i ∉ sortedUnique cats))) ≠ [] →
      load_database fs st =
        (⟨sortedUnique cats, rows, st.mapping_dict⟩,
         some (.invalidIndustries (dedupL ((rows.map Prod.snd).filter
           (fun i => decide (i ∉ sortedUnique cats))))))) ∧
    (∀ cats rows, fs.industryCategories = some cats → fs.stockData = some rows →
      dedupL ((rows.map Prod.snd).filter
        (fun i => decide (i ∉ sortedUnique cats))) = [] →
      load_database fs st =
        (⟨sortedUnique cats, rows,
          rows.map (fun r => (r.1.map Char.toUpper, r.2))⟩, none)) := by
  refine ⟨fun h => ?_, fun cats h1 h2 => ?_,
    fun cats rows h1 h2 hbad => ?_, fun cats rows h1 h2 hbad => ?_⟩
  · unfold load_database
    rw [h]
  · unfold load_database
    rw [h1, h2]
  · unfold load_database
    rw [h1, h2]
    have hne : (dedupL ((rows.map Prod.snd).filter
        (fun i => decide (i ∉ sortedUnique cats)))).isEmpty = false :=
      List.isEmpty_eq_false.mpr hbad
    simp only [hne]
    rfl
  · unfold load_database
    rw [h1, h2]
    have hemp : (dedupL ((rows.map Prod.snd).filter
        (fun i => decide (i ∉ sortedUnique cats)))).isEmpty = true :=
      List.isEmpty_eq_true.mpr hbad
    simp only [hemp, if_true]

/-- C7 (amended): the load replaces state field by field, so it is atomic
only on the success path and on the missing-catalog path.  Precisely: if the
industry-category source is missing, the state is unchanged; if the category
source is read but the stock source is missing, `available_industries` is
already replaced while `mapping_df` and `mapping_dict` keep their old values;
if both are read but the consistency check fails, `available_industries` and
`mapping_df` are replaced while `mapping_dict` keeps its old value; on
success all three fields are replaced by the new tables. -/
theorem load_database_update_profile (fs : FS) (st : MapperState) :
    (fs.industryCategories = none →
      load_database fs st = (st, some .notFound)) ∧
    (∀ cats, fs.industryCategories = some cats → fs.stockData = none →
      load_database fs st =
        ({ st with available_industries := sortedUnique cats }, some .notFound)) ∧
    (∀ cats rows, fs.industryCategories = some cats → fs.stockData = some rows →
      dedupL ((rows.map Prod.snd).filter
        (fun i => decide (i ∉ sortedUnique cats))) ≠ [] →
      load_database fs st =
        (⟨sortedUnique cats, rows, st.mapping_dict⟩,
         some (.invalidIndustries (dedupL ((rows.map Prod.snd).filter
           (fun i => decide (i ∉ sortedUnique cats))))))) ∧
    (∀ cats rows, fs.industryCategories = some cats → fs.stockData = some rows →
      dedupL ((rows.map Prod.snd).filter
        (fun i => decide (i ∉ sortedUnique cats))) = [] →
      load_database fs st =
        (⟨sortedUnique cats, rows,
          rows.map (fun r => (r.1.map Char.toUpper, r.2))⟩, none)) :=
  load_database_cases fs st

/-- Witness for C7 (amended): concrete sources failing the consistency check
leave exactly `available_industries` and `mapping_df` replaced. -/
theorem load_database_update_profile_witness :
    load_database
        ⟨some ["Tech".data], some [("TCS".data, "IT".data)]⟩
        ⟨["OldInd".data], [("OLDSYM".data, "OldInd".data)],
          [("OLDSYM".data, "OldInd".data)]⟩ =
      (⟨sortedUnique ["Tech".data], [("TCS".data, "IT".data)],
        [("OLDSYM".data, "OldInd".data)]⟩,
       some (.invalidIndustries (dedupL (([("TCS".data, "IT".data)].map
         Prod.snd).filter (fun i => decide (i ∉ sortedUnique ["Tech".data])))))) :=
  (load_database_update_profile
      ⟨some ["Tech".data], some [("TCS".data, "IT".data)]⟩
      ⟨["OldInd".data], [("OLDSYM".data, "OldInd".data)],
        [("OLDSYM".data, "OldInd".data)]⟩).2.2.1
    ["Tech".data] [("TCS".data, "IT".data)] rfl rfl (by decide)

/-- C8: with both sources readable, loading passes the consistency check (no
error) exactly when every industry value of the mapping is a member of the
catalog, and fails exactly when some industry value is absent — in that case
the error names precisely the nonempty set of offending industries (the
distinct mapping industries missing from the catalog). -/
theorem load_database_consistency (st : MapperState) (fs : FS)
    (cats : List (List Char)) (rows : List (List Char × List Char))
    (h1 : fs.industryCategories = some cats) (h2 : fs.stockData = some rows) :
    ((load_database fs st).2 = none ↔ ∀ i ∈ rows.map Prod.snd, i ∈ cats) ∧
    ((∃ bad, (load_database fs st).2 = some (.invalidIndustries bad) ∧
        bad ≠ [] ∧ ∀ i, i ∈ bad ↔ i ∈ rows.map Prod.snd ∧ i ∉ cats)
      ↔ ∃ i ∈ rows.map Prod.snd, i ∉ cats) := by
  have hload := load_database_cases fs st
  by_cases hbad : dedupL ((rows.map Prod.snd).filter
      (fun i => decide (i ∉ sortedUnique cats))) = []
  · have heq := hload.2.2.2 cats rows h1 h2 hbad
    have hall : ∀ i ∈ rows.map Prod.snd, i ∈ cats := by
      intro i hi
      have hfil := (dedupL_eq_nil _).mp hbad
      have := List.filter_eq_nil_iff.mp hfil i hi
      simp only [decide_eq_true_eq] at this
      exact (mem_sortedUnique i cats).mp (not_not.mp this)
    constructor
    · rw [heq]
      exact ⟨fun _ => hall, fun _ => rfl⟩
    · constructor
      · rintro ⟨bad, hb, -⟩
        rw [heq] at hb
        exact absurd hb (by simp)
      · rintro ⟨i, hi, hic⟩
        exact absurd (hall i hi) hic
  · have heq := hload.2.2.1 cats rows h1 h2 hbad
    have hchar : ∀ i, i ∈ dedupL ((rows.map Prod.snd).filter
        (fun i => decide (i ∉ sortedUnique cats))) ↔
        i ∈ rows.map Prod.snd ∧ i ∉ cats := by
      intro i
      rw [mem_dedupL, List.mem_filter]
      simp only [decide_eq_true_eq, mem_sortedUnique]
    constructor
    · rw [heq]
      constructor
      · intro hc
        exact absurd hc (by simp)
      · intro hall
        rcases List.exists_mem_of_ne_nil _ hbad with ⟨i, hi⟩
        rcases (hchar i).mp hi with ⟨hmem, hnot⟩
        exact absurd (hall i hmem) hnot
    · constructor
      · rintro ⟨i, hi⟩
        rcases List.exists_mem_of_ne_nil _ hbad with ⟨j, hj⟩
        rcases (hchar j).mp hj with ⟨hmem, hnot⟩
        exact ⟨j, hmem, hnot⟩
      · intro _
        refine ⟨_, by rw [heq], hbad, hchar⟩

/-- Witness for C8: a concrete catalog and mapping where the single mapping
industry is absent from the catalog, so the load fails naming it. -/
theorem load_database_consistency_witness :
    ((load_database ⟨some ["Tech".data], some [("TCS".data, "IT".data)]⟩
        ⟨[], [], []⟩).2 = none ↔
      ∀ i ∈ [("TCS".data, "IT".data)].map Prod.snd, i ∈ ["Tech".data]) ∧
    ((∃ bad, (load_database ⟨some ["Tech".data], some [("TCS".data, "IT".data)]⟩
        ⟨[], [], []⟩).2 = some (.invalidIndustries bad) ∧
        bad ≠ [] ∧
        ∀ i, i ∈ bad ↔ i ∈ [("TCS".data, "IT".data)].map Prod.snd ∧
          i ∉ ["Tech".data])
      ↔ ∃ i ∈ [("TCS".data, "IT".data)].map Prod.snd, i ∉ ["Tech".data]) :=
  load_database_consistency ⟨[], [], []⟩
    ⟨some ["Tech".data], some [("TCS".data, "IT".data)]⟩
    ["Tech".data] [("TCS".data, "IT".data)] rfl rfl

/-- C9: `get_fundamentals_data` degrades gracefully instead of failing: it is
a total function of its inputs (never an exception), it returns the empty
collection when the results-calendar source is missing or unreadable, and it
returns the empty collection when no row's (case-insensitively compared)
symbol is in the requested set. -/
theorem get_fundamentals_graceful :
    (∀ symbols, get_fundamentals_data none symbols = []) ∧
    (∀ rows symbols,
      (∀ r ∈ rows, r.symbol.map Char.toUpper ∉
        symbols.map (fun s => s.map Char.toUpper)) →
      get_fundamentals_data (some rows) symbols = []) := by
  refine ⟨fun _ => rfl, fun rows symbols h => ?_⟩
  have hfil : (rows.map
        (fun r => { r with symbol := r.symbol.map Char.toUpper })).filter
      (fun r => decide (r.symbol ∈ symbols.map (fun s => s.map Char.toUpper)))
      = [] := by
    rw [List.filter_eq_nil_iff]
    intro r hr
    obtain ⟨r0, hr0, rfl⟩ := List.mem_map.mp hr
    simp only [decide_eq_true_eq]
    exact h r0 hr0
  simp only [get_fundamentals_data]
  rw [hfil]
  rfl

/-- Witness for C9: a missing source, and a one-row calendar whose only
symbol is not among the requested ones. -/
theorem get_fundamentals_graceful_witness :
    get_fundamentals_data none ["AAPL".data] = [] ∧
    get_fundamentals_data (some [⟨"TCS".data, "01/05/2024".data, []⟩])
      ["AAPL".data] = [] :=
  ⟨get_fundamentals_graceful.1 ["AAPL".data],
   get_fundamentals_graceful.2 [⟨"TCS".data, "01/05/2024".data, []⟩]
     ["AAPL".data] (by decide)⟩

theorem toNat_ofNat_valid (n : Nat) (h : n.isValidChar) :
    (Char.ofNat n).toNat = n := by
  rw [Char.ofNat, dif_pos h]
  rfl

theorem toUpper_cases (c : Char) :
    c.toUpper = c ∨ (65 ≤ c.toUpper.toNat ∧ c.toUpper.toNat ≤ 90) := by
  simp only [Char.toUpper]
  by_cases h : c.toNat ≥ 97 ∧ c.toNat ≤ 122
  · right
    rw [if_pos h, toNat_ofNat_valid _ (Or.inl (by omega))]
    omega
  · left
    rw [if_neg h]

theorem toUpper_eq_self_of_not_lower {d : Char}
    (h : ¬(d.toNat ≥ 97 ∧ d.toNat ≤ 122)) : d.toUpper = d := by
  simp only [Char.toUpper]
  rw [if_neg h]

theorem toUpper_idem (c : Char) : c.toUpper.toUpper = c.toUpper := by
  rcases toUpper_cases c with h | h
  · rw [h]
    exact h
  · exact toUpper_eq_self_of_not_lower (by omega)

theorem toUpper_eq_of_small {c x : Char} (hx : x.toNat < 65)
    (h : c.toUpper = x) : c = x := by
  rcases toUpper_cases c with h1 | h1
  · rw [h] at h1
    exact h1.symm
  · rw [h] at h1
    omega

theorem replaceSep_ne (c : Char) : replaceSep c ≠ ';' ∧ replaceSep c ≠ '\n' := by
  unfold replaceSep
  split
  · exact ⟨by decide, by decide⟩
  · split
    · exact ⟨by decide, by decide⟩
    · rename_i h1 h2
      exact ⟨h2, h1⟩

theorem splitChar_ne_nil (sep : Char) : ∀ l, splitChar sep l ≠ []
  | [] => by simp [splitChar]
  | c :: cs => by
    cases h : splitChar sep cs with
    | nil => simp [splitChar, h]
    | cons u us =>
      by_cases hc : c = sep <;> simp [splitChar, h, hc]

theorem mem_of_mem_splitChar {c sep : Char} :
    ∀ {l t : List Char}, t ∈ splitChar sep l → c ∈ t → c ∈ l := by
  intro l
  induction l with
  | nil =>
    intro t ht hc
    simp [splitChar] at ht
    subst ht
    exact absurd hc (List.not_mem_nil c)
  | cons a as ih =>
    intro t ht hc
    cases hs : splitChar sep as with
    | nil => exact absurd hs (splitChar_ne_nil sep as)
    | cons u us =>
      simp only [splitChar, hs] at ht
      by_cases ha : a = sep
      · rw [if_pos ha] at ht
        rcases List.mem_cons.mp ht with h1 | h1
        · subst h1
          exact absurd hc (List.not_mem_nil c)
        · exact List.mem_cons_of_mem _ (ih (hs ▸ h1) hc)
      · rw [if_neg ha] at ht
        rcases List.mem_cons.mp ht with h1 | h1
        · subst h1
          rcases List.mem_cons.mp hc with h2 | h2
          · exact h2 ▸ List.mem_cons_self _ _
          · exact List.mem_cons_of_mem _
              (ih (hs ▸ List.mem_cons_self u us) h2)
        · exact List.mem_cons_of_mem _
            (ih (hs ▸ List.mem_cons_of_mem u h1) hc)

theorem sep_not_mem_splitChar {sep : Char} :
    ∀ {l t : List Char}, t ∈ splitChar sep l → sep ∉ t := by
  intro l
  induction l with
  | nil =>
    intro t ht
    simp [splitChar] at ht
    subst ht
    exact List.not_mem_nil sep
  | cons a as ih =>
    intro t ht
    cases hs : splitChar sep as with
    | nil => exact absurd hs (splitChar_ne_nil sep as)
    | cons u us =>
      simp only [splitChar, hs] at ht
      by_cases ha : a = sep
      · rw [if_pos ha] at ht
        rcases List.mem_cons.mp ht with h1 | h1
        · subst h1
          exact List.not_mem_nil sep
        · exact ih (hs ▸ h1)
      · rw [if_neg ha] at ht
        rcases List.mem_cons.mp ht with h1 | h1
        · subst h1
          intro hmem
          rcases List.mem_cons.mp hmem with h2 | h2
          · exact ha h2.symm
          · exact ih (hs ▸ List.mem_cons_self u us) h2
        · exact ih (hs ▸ List.mem_cons_of_mem u h1)

theorem splitChar_of_not_mem (sep : Char) :
    ∀ (x : List Char), sep ∉ x → splitChar sep x = [x] := by
  intro x
  induction x with
  | nil => intro _; rfl
  | cons a as ih =>
    intro h
    have ha : ¬a = sep := fun he => h (he ▸ List.mem_cons_self a as)
    simp only [splitChar, ih (fun hm => h (List.mem_cons_of_mem a hm)), if_neg ha]

theorem splitChar_append (sep : Char) :
    ∀ (x r : List Char), sep ∉ x →
      splitChar sep (x ++ sep :: r) = x :: splitChar sep r := by
  intro x
  induction x with
  | nil =>
    intro r _
    simp only [List.nil_append, splitChar]
    cases hs : splitChar sep r with
    | nil => exact absurd hs (splitChar_ne_nil sep r)
    | cons u us => simp
  | cons a as ih =>
    intro r h
    have ha : ¬a = sep := fun he => h (he ▸ List.mem_cons_self a as)
    have hrec := ih r (fun hm => h (List.mem_cons_of_mem a hm))
    simp [List.cons_append, splitChar, hrec, ha]

theorem splitChar_joinL (sep : Char) :
    ∀ ts : List (List Char), ts ≠ [] → (∀ t ∈ ts, sep ∉ t) →
      splitChar sep (joinL [sep] ts) = ts
  | [], h, _ => absurd rfl h
  | [x], _, hall => by
    simp only [joinL]
    exact splitChar_of_not_mem sep x (hall x (List.mem_cons_self x []))
  | x :: y :: ys, _, hall => by
    have hj : joinL [sep] (x :: y :: ys) = x ++ sep :: joinL [sep] (y :: ys) := by
      simp [joinL]
    rw [hj, splitChar_append sep x _ (hall x (List.mem_cons_self x _)),
      splitChar_joinL sep (y :: ys) (by simp)
        (fun t ht => hall t (List.mem_cons_of_mem x ht))]

theorem mem_joinL {c : Char} {sep : List Char} :
    ∀ {ts : List (List Char)}, c ∈ joinL sep ts → c ∈ sep ∨ ∃ t ∈ ts, c ∈ t
  | [], h => absurd h (List.not_mem_nil c)
  | [x], h => by
    simp only [joinL] at h
    exact Or.inr ⟨x, List.mem_cons_self x [], h⟩
  | x :: y :: ys, h => by
    simp only [joinL] at h
    rcases List.mem_append.mp h with h1 | h1
    · rcases List.mem_append.mp h1 with h2 | h2
      · exact Or.inr ⟨x, List.mem_cons_self x _, h2⟩
      · exact Or.inl h2
    · rcases mem_joinL h1 with h2 | ⟨t, ht, hc⟩
      · exact Or.inl h2
      · exact Or.inr ⟨t, List.mem_cons_of_mem x ht, hc⟩

theorem not_mem_dedupAux_of_mem_seen {x : List Char} :
    ∀ seen l, x ∈ seen → x ∉ dedupAux seen l := by
  intro seen l
  induction l generalizing seen with
  | nil =>
    intro hx h
    simp [dedupAux] at h
  | cons y ys ih =>
    intro hx
    simp only [dedupAux]
    by_cases hy : y ∈ seen
    · rw [if_pos hy]
      exact ih seen hx
    · rw [if_neg hy]
      intro hmem
      rcases List.mem_cons.mp hmem with h1 | h1
      · exact hy (h1 ▸ hx)
      · exact ih (y :: seen) (List.mem_cons_of_mem y hx) h1

theorem dedupAux_eq_self :
    ∀ (l seen : List (List Char)), l.Nodup → (∀ x ∈ l, x ∉ seen) →
      dedupAux seen l = l := by
  intro l
  induction l with
  | nil => intro seen _ _; rfl
  | cons y ys ih =>
    intro seen hnd hdisj
    have hy : y ∉ seen := hdisj y (List.mem_cons_self y ys)
    simp only [dedupAux, if_neg hy]
    rw [ih (y :: seen) (List.Nodup.of_cons hnd)]
    intro x hx hmem
    rcases List.mem_cons.mp hmem with h1 | h1
    · exact (List.nodup_cons.mp hnd).1 (h1 ▸ hx)
    · exact hdisj x (List.mem_cons_of_mem y hx) h1

theorem nodup_dedupAux :
    ∀ (l seen : List (List Char)), (dedupAux seen l).Nodup := by
  intro l
  induction l with
  | nil => intro seen; exact List.nodup_nil
  | cons y ys ih =>
    intro seen
    simp only [dedupAux]
    by_cases hy : y ∈ seen
    · rw [if_pos hy]
      exact ih seen
    · rw [if_neg hy]
      exact List.nodup_cons.mpr
        ⟨not_mem_dedupAux_of_mem_seen (y :: seen) ys (List.mem_cons_self y seen),
         ih (y :: seen)⟩

theorem dedupL_idem (l : List (List Char)) : dedupL (dedupL l) = dedupL l :=
  dedupAux_eq_self _ [] (nodup_dedupAux l []) (fun x _ => List.not_mem_nil x)

theorem mem_of_mem_strip {c : Char} {l : List Char} (h : c ∈ strip l) : c ∈ l := by
  unfold strip at h
  rw [List.mem_reverse] at h
  have h1 := (List.dropWhile_sublist isSpaceChar).mem h
  rw [List.mem_reverse] at h1
  exact (List.dropWhile_sublist isSpaceChar).mem h1

theorem mem_cleanToken {c : Char} {l : List Char} (h : c ∈ cleanToken l) :
    ∃ d ∈ l, d.toUpper = c := by
  unfold cleanToken dropNSE at h
  have h2 : c ∈ (strip l).map Char.toUpper := by
    split at h
    · exact List.mem_of_mem_drop h
    · exact h
  obtain ⟨d, hd, hdc⟩ := List.mem_map.mp h2
  exact ⟨d, mem_of_mem_strip hd, hdc⟩

theorem cleanToken_upper_fixed (l : List Char) :
    (cleanToken l).map Char.toUpper = cleanToken l := by
  have hu : ((strip l).map Char.toUpper).map Char.toUpper
      = (strip l).map Char.toUpper := by
    rw [List.map_map]
    exact List.map_congr_left (fun a _ => toUpper_idem a)
  unfold cleanToken dropNSE
  split
  · rw [List.map_drop, hu]
  · exact hu

theorem map_eq_self_of_fixed {α : Type} {f : α → α} :
    ∀ {l : List α}, (∀ a ∈ l, f a = a) → l.map f = l := by
  intro l
  induction l with
  | nil => intro _; rfl
  | cons x xs ih =>
    intro h
    rw [List.map_cons, h x (List.mem_cons_self x xs),
      ih (fun a ha => h a (List.mem_cons_of_mem x ha))]

/-- Every token produced by `clean_symbols` contains no separator character
and is fixed under character-wise uppercasing. -/
theorem clean_symbols_tokens {s t : List Char} (h : t ∈ clean_symbols s) :
    (',' ∉ t ∧ ';' ∉ t ∧ '\n' ∉ t) ∧ t.map Char.toUpper = t := by
  unfold clean_symbols at h
  have h1 := mem_of_mem_dedupAux [] _ h
  obtain ⟨t0, ht0, rfl⟩ := List.mem_map.mp h1
  have ht0' := (List.mem_filter.mp ht0).1
  refine ⟨⟨?_, ?_, ?_⟩, cleanToken_upper_fixed t0⟩
  · intro hc
    obtain ⟨d, hd, hdc⟩ := mem_cleanToken hc
    have : d = ',' := toUpper_eq_of_small (by decide) hdc
    exact sep_not_mem_splitChar ht0' (this ▸ hd)
  · intro hc
    obtain ⟨d, hd, hdc⟩ := mem_cleanToken hc
    have hds : d = ';' := toUpper_eq_of_small (by decide) hdc
    have hmem := mem_of_mem_splitChar ht0' hd
    obtain ⟨e, _, he⟩ := List.mem_map.mp hmem
    exact (replaceSep_ne e).1 (he.trans hds)
  · intro hc
    obtain ⟨d, hd, hdc⟩ := mem_cleanToken hc
    have hds : d = '\n' := toUpper_eq_of_small (by decide) hdc
    have hmem := mem_of_mem_splitChar ht0' hd
    obtain ⟨e, _, he⟩ := List.mem_map.mp hmem
    exact (replaceSep_ne e).2 (he.trans hds)

/-- If a token list already consists of separator-free, self-cleaning,
nonblank tokens with no duplicates, `clean_symbols` recovers it from the
comma-rejoined text. -/
theorem clean_symbols_of_clean (ts : List (List Char)) (hne : ts ≠ [])
    (hsep : ∀ t ∈ ts, ',' ∉ t ∧ ';' ∉ t ∧ '\n' ∉ t)
    (hfix : ∀ t ∈ ts, cleanToken t = t)
    (hkeep : ∀ t ∈ ts, strip t ≠ [])
    (hnd : dedupL ts = ts) :
    clean_symbols (joinL [','] ts) = ts := by
  have h1 : (joinL [','] ts).map replaceSep = joinL [','] ts := by
    apply map_eq_self_of_fixed
    intro c hc
    rcases mem_joinL hc with h2 | ⟨t, ht, hct⟩
    · have : c = ',' := by simpa using h2
      subst this
      rfl
    · have hcs : c ≠ ';' := fun he => (hsep t ht).2.1 (he ▸ hct)
      have hcn : c ≠ '\n' := fun he => (hsep t ht).2.2 (he ▸ hct)
      unfold replaceSep
      rw [if_neg hcn, if_neg hcs]
  show dedupL (((splitChar ',' ((joinL [','] ts).map replaceSep)).filter
      (fun t => !(strip t).isEmpty)).map cleanToken) = ts
  rw [h1, splitChar_joinL ',' ts hne (fun t ht => (hsep t ht).1)]
  have h2 : ts.filter (fun t => !(strip t).isEmpty) = ts := by
    rw [List.filter_eq_self]
    intro t ht
    simp [hkeep t ht]
  rw [h2, map_eq_self_of_fixed hfix, hnd]

/-- C5 (counterexample): normalization is not idempotent.  On the input
`"NSE:NSE:ABC"` the cleaner strips the `NSE:` decoration only once, producing
the token `NSE:ABC`; re-normalizing that output strips it again, yielding a
different list. -/
theorem clean_symbols_not_idempotent :
    clean_symbols (joinL [','] (clean_symbols "NSE:NSE:ABC".data))
      ≠ clean_symbols "NSE:NSE:ABC".data := by
  decide

/-- C5 (amended): normalization is idempotent for every input whose
normalized tokens are nonempty, carry no surrounding whitespace, and do not
begin with the `NSE:` decoration; it is not idempotent in general, because
the cleaner removes at most one `NSE:` decoration per pass (and removing it
can expose a further decoration, a leading blank, or an empty token), so
re-normalizing can change a token, as witnessed by `"NSE:NSE:ABC"`. -/
theorem clean_symbols_idem_amended (s : List Char)
    (h : ∀ t ∈ clean_symbols s, t ≠ [] ∧ strip t = t ∧ t.take 4 ≠ "NSE:".data) :
    clean_symbols (joinL [','] (clean_symbols s)) = clean_symbols s := by
  by_cases hne : clean_symbols s = []
  · rw [hne]
    decide
  · refine clean_symbols_of_clean _ hne ?_ ?_ ?_ ?_
    · intro t ht
      exact (clean_symbols_tokens ht).1
    · intro t ht
      obtain ⟨hn, hstrip, htake⟩ := h t ht
      have hupper := (clean_symbols_tokens ht).2
      unfold cleanToken
      rw [hstrip, hupper]
      unfold dropNSE
      rw [if_neg htake]
    · intro t ht
      obtain ⟨hn, hstrip, _⟩ := h t ht
      rw [hstrip]
      exact hn
    · exact dedupL_idem _

/-- Witness for C5 (amended): a concrete input whose normalized tokens are
clean, on which normalization is idempotent. -/
theorem clean_symbols_idem_amended_witness :
    (∀ t ∈ clean_symbols "AAPL, msft".data,
      t ≠ [] ∧ strip t = t ∧ t.take 4 ≠ "NSE:".data) ∧
    clean_symbols (joinL [','] (clean_symbols "AAPL, msft".data))
      = clean_symbols "AAPL, msft".data :=
  ⟨by decide, clean_symbols_idem_amended "AAPL, msft".data (by decide)⟩

end SymbolIndustry
